import Mathlib

/-!
Verification of the rqlite excerpt: the command-line history utility
(`cmd/rqlite/history/history.go`) and the micro-batching queue
(`queue` package, modelled from the specification since only its tests
appear in the excerpt).

Part 1: shallow embedding of the history package.  Strings are Lean
strings; Go slices of strings are Lean lists; `io.Writer` is modelled as
a string accumulator (the value returned is the full byte stream
written); a run-time panic (out-of-bounds slice or index) is modelled as
`none`.
-/

namespace History

/-- Model of Go's `unicode.IsSpace`: the Unicode White_Space property.
The complete list of White_Space code points: TAB, LF, VT, FF, CR, SPACE,
NEL, NBSP, OGHAM SPACE MARK, EN QUAD .. HAIR SPACE, LINE SEPARATOR,
PARAGRAPH SEPARATOR, NARROW NBSP, MEDIUM MATHEMATICAL SPACE,
IDEOGRAPHIC SPACE. -/
def goIsSpace (c : Char) : Bool :=
  c = '\t' || c = '\n' || c = '\x0b' || c = '\x0c' || c = '\r' || c = ' ' ||
  c = '\u0085' || c = ' ' || c.val = 0x1680 ||
  (0x2000 ≤ c.val && c.val ≤ 0x200a) ||
  c.val = 0x2028 || c.val = 0x2029 || c.val = 0x202f || c.val = 0x205f ||
  c.val = 0x3000

/-- Scanning loop for `words`: `cur` is the (reversed) non-space run
currently being read. -/
def wordsAux : List Char → List Char → List (List Char)
  | [], cur => if cur.isEmpty then [] else [cur.reverse]
  | c :: cs, cur =>
    if goIsSpace c then
      if cur.isEmpty then wordsAux cs [] else cur.reverse :: wordsAux cs []
    else wordsAux cs (c :: cur)

/-- Model of Go's `strings.Fields` on a list of characters: the maximal
runs of non-space characters, in order. -/
def words (l : List Char) : List (List Char) :=
  wordsAux l []

/-- Model of Go's `strings.Fields`. -/
def fields (s : String) : List String :=
  (words s.toList).map (fun w => String.mk w)

/-- Helper for `Dedupe`: `prev` is the last element already appended to
the output slice `o` (`o[len(o)-1]` in the Go loop). -/
def dedupeAux (prev : String) : List String → List String
  | [] => []
  | x :: xs => if x ≠ prev then x :: dedupeAux x xs else dedupeAux prev xs

/-- `Dedupe` from history.go: appends `s[si]` whenever `si == 0` or
`s[si] != o[len(o)-1]` (the last element appended so far). -/
def Dedupe : List String → List String
  | [] => []
  | x :: xs => x :: dedupeAux x xs

/-- `Filter` from history.go: drops `s[si]` when it is `""` or
`len(strings.Fields(s[si])) == 0`. -/
def Filter : List String → List String
  | [] => []
  | x :: xs =>
    if x = "" || (fields x).length = 0 then Filter xs else x :: Filter xs

/-- `Read` from history.go: a nil reader yields nil; otherwise the lines
produced by the `bufio.Scanner` (standard library, modelled as the list
of scanned lines) are passed through `Filter`. -/
def Read (r : Option (List String)) : List String :=
  match r with
  | none => []
  | some lines => Filter lines

/-- The final write loop of `Write`: writes `k[i] + "\n"` for
`i < len(k)-1`, then writes `k[len(k)-1]`.  On an empty `k` the loop body
never runs and the final index `k[len(k)-1]` is out of bounds (`none`). -/
def writeLoop (k : List String) : Option String :=
  match k.getLast? with
  | none => none
  | some last => some (String.join (k.dropLast.map (fun x => x ++ "\n")) ++ last)

/-- `Write` from history.go.  `wNil` models `w == nil`; the returned
string is everything written to `w`; `none` models a run-time panic.
The truncation `k = k[len(k)-maxSz:]` panics when the lower bound
`len(k)-maxSz` exceeds `len(k)`. -/
def WriteHist (j : List String) (maxSz : Int) (wNil : Bool) : Option String :=
  if j.length = 0 then some ""
  else if wNil then some ""
  else
    let k := Filter (Dedupe j)
    if k.length = 0 then some ""
    else
      if (k.length : Int) > maxSz then
        let lo : Int := (k.length : Int) - maxSz
        if lo ≤ (k.length : Int) then writeLoop (k.drop lo.toNat)
        else none
      else writeLoop k

/-- Model of Go's `strconv.Atoi` (`ParseInt(s, 10, 0)` with 64-bit int):
an optional sign, one or more decimal digits, and the value must fit in
a signed 64-bit integer; anything else is an error (`none`). -/
def atoi (s : String) : Option Int :=
  let (sign, ds) : Int × List Char :=
    match s.toList with
    | '+' :: t => (1, t)
    | '-' :: t => (-1, t)
    | t => (1, t)
  if ds.isEmpty then none
  else if ds.all (fun c => '0' ≤ c && c ≤ '9') then
    let n : Nat := ds.foldl (fun a c => 10 * a + (c.toNat - '0'.toNat)) 0
    let v : Int := sign * (n : Int)
    if -(2 ^ 63) ≤ v ∧ v ≤ 2 ^ 63 - 1 then some v else none
  else none

def MaxHistSize : Int := 100

/-- `Size` from history.go.  `maxSizeStr` is the value of
`RQLITE_HISTFILESIZE` (`""` when unset).  Note the guard
`err == nil && maxSize > 0` tests `maxSize` — still the default
`MaxHistSize` at that point — not the parsed value `sz`. -/
def Size (maxSizeStr : String) : Int :=
  let maxSize : Int := MaxHistSize
  if maxSizeStr ≠ "" then
    match atoi maxSizeStr with
    | some sz => if maxSize > 0 then sz else maxSize
    | none => maxSize
  else maxSize

/-- The entries joined in order, separated by newlines, with no trailing
newline (the spec's description of the persisted history layout, used to
compare against `WriteHist`). -/
def joinNL : List String → String
  | [] => ""
  | [x] => x
  | x :: y :: ys => x ++ "\n" ++ joinNL (y :: ys)

end History

namespace Queue

/-- Modelled from the spec: the implementation file `queue/queue.go` is
not part of the excerpt (only `queue_test.go` is), so the queue is
modelled from §3–§4 of the specification.  Configuration: input
capacity, batchSize, batchTimeout — immutable, all required positive. -/
structure QCfg where
  capacity : Int
  batchSize : Int
  batchTimeout : Int
deriving DecidableEq, Repr

/-- Modelled from the spec: why a batch was sealed — size-triggered,
timeout-triggered, or flushed by `Close`. -/
inductive Trigger where
  | size
  | timeout
  | close
deriving DecidableEq, Repr

/-- Modelled from the spec: a sealed batch delivered to the Output
Stream, together with the trigger that sealed it. -/
structure Emission (α : Type) where
  items : List α
  trigger : Trigger
deriving DecidableEq, Repr

/-- Modelled from the spec: the Dispatcher-owned state of a queue.
`batch` is the single open batch, `numTimeouts` the diagnostic counter,
`emitted` the sequence of batches delivered so far to the Output Stream
(in delivery order), `closed` whether `Close` has run. -/
structure QState (α : Type) where
  batch : List α
  numTimeouts : Nat
  emitted : List (Emission α)
  closed : Bool
deriving DecidableEq, Repr

/-- Modelled from the spec: the events the sequential Dispatcher
processes — a producer `Write` (of a possibly nil item), the batch timer
firing, and a `Close` request.  The Input Buffer is a FIFO pass-through
between `Write` and the Dispatcher, so a complete execution is a
sequence of these events processed in order. -/
inductive Ev (α : Type) where
  | write (x : Option α)
  | timer
  | close

/-- Modelled from the spec: the state of a freshly constructed queue —
empty open batch, counter zero, nothing emitted, not closed. -/
def initState (α : Type) : QState α :=
  ⟨[], 0, [], false⟩

/-- Modelled from the spec: the result of `Write` — a nil item returns
success immediately; otherwise `Write` succeeds unless the queue has
been closed (`Closed`). -/
def writeOk (s : QState α) (x : Option α) : Bool :=
  match x with
  | none => true
  | some _ => !s.closed

/-- Modelled from the spec: one Dispatcher transition (§4.2).
A nil write is an explicit no-op.  A non-nil write on an open queue
appends to the open batch and, when the batch reaches batchSize, seals
and delivers it (size-triggered, no counter change).  The timer firing
on a non-empty batch seals and delivers it (timeout-triggered,
increments `numTimeouts`); on an empty batch it just rearms.  `Close`
flushes any partial batch and stops the queue. -/
def step (cfg : QCfg) (s : QState α) : Ev α → QState α
  | .write none => s
  | .write (some x) =>
    if s.closed then s
    else
      let b := s.batch ++ [x]
      if (b.length : Int) = cfg.batchSize then
        { s with batch := [], emitted := s.emitted ++ [⟨b, Trigger.size⟩] }
      else
        { s with batch := b }
  | .timer =>
    if s.closed then s
    else if s.batch.isEmpty then s
    else
      { s with batch := [], numTimeouts := s.numTimeouts + 1,
               emitted := s.emitted ++ [⟨s.batch, Trigger.timeout⟩] }
  | .close =>
    if s.closed then s
    else if s.batch.isEmpty then { s with closed := true }
    else
      { s with batch := [], closed := true,
               emitted := s.emitted ++ [⟨s.batch, Trigger.close⟩] }

/-- Modelled from the spec: run the Dispatcher over a sequence of events
from a given state. -/
def runFrom (cfg : QCfg) (s : QState α) (events : List (Ev α)) : QState α :=
  events.foldl (step cfg) s

/-- Modelled from the spec: run a freshly constructed queue over a
sequence of events. -/
def run (cfg : QCfg) (events : List (Ev α)) : QState α :=
  runFrom cfg (initState α) events

/-- Modelled from the spec: construction (§4.1).  All three parameters
must be positive, otherwise construction fails immediately
(`InvalidConfig`, modelled as `none`) with no queue created; on success
it returns the live handle — the configuration plus the initial
Dispatcher state. -/
def New (α : Type) (capacity batchSize batchTimeout : Int) :
    Option (QCfg × QState α) :=
  if capacity ≤ 0 ∨ batchSize ≤ 0 ∨ batchTimeout ≤ 0 then none
  else some (⟨capacity, batchSize, batchTimeout⟩, initState α)

end Queue

section QueueTheorems

open Queue

/-- Running a sequence of non-nil writes from an open state with a
not-yet-full batch: the queue stays open, `numTimeouts` is untouched,
the open batch stays below batchSize, every new emission is a
size-triggered batch of length exactly batchSize, and the count of
items is conserved: batchSize·(emissions) + (open batch) grows by
exactly the number of writes. -/
lemma queue_writes_run {α : Type} (cfg : QCfg) (B : Nat) (hB : 0 < B)
    (hBe : cfg.batchSize = (B : Int)) (xs : List α) :
    ∀ s : QState α, s.closed = false → s.batch.length < B →
      ∃ t, runFrom cfg s (xs.map fun x => Ev.write (some x)) = t ∧
        t.closed = false ∧ t.numTimeouts = s.numTimeouts ∧
        t.batch.length < B ∧
        B * t.emitted.length + t.batch.length
          = B * s.emitted.length + s.batch.length + xs.length ∧
        ∀ e ∈ t.emitted,
          e ∈ s.emitted ∨ (e.items.length = B ∧ e.trigger = Trigger.size) := by
  induction xs with
  | nil =>
    intro s hc hlt
    exact ⟨s, rfl, hc, rfl, hlt, by simp, fun e he => Or.inl he⟩
  | cons x xs ih =>
    intro s hc hlt
    have hstep :
        runFrom cfg s ((x :: xs).map fun y => Ev.write (some y))
          = runFrom cfg (step cfg s (Ev.write (some x)))
              (xs.map fun y => Ev.write (some y)) := rfl
    have hs1 : step cfg s (Ev.write (some x)) =
        if ((s.batch ++ [x]).length : Int) = cfg.batchSize then
          { s with batch := [],
                   emitted := s.emitted ++ [⟨s.batch ++ [x], Trigger.size⟩] }
        else { s with batch := s.batch ++ [x] } := by
      simp [step, hc]
    by_cases hfull : s.batch.length + 1 = B
    · have hlen : (s.batch ++ [x]).length = B := by
        simp
        omega
      have hcond : ((s.batch ++ [x]).length : Int) = cfg.batchSize := by
        rw [hBe, hlen]
      rw [hstep, hs1, if_pos hcond]
      obtain ⟨t, ht, tc, tn, tb, teq, tem⟩ :=
        ih { s with batch := [],
                    emitted := s.emitted ++ [⟨s.batch ++ [x], Trigger.size⟩] }
          hc (by simpa using hB)
      refine ⟨t, ht, tc, by simpa using tn, tb, ?_, ?_⟩
      · simp only [List.length_append, List.length_cons, List.length_nil,
          List.length_map] at teq ⊢
        rw [Nat.mul_succ] at teq
        omega
      · intro e he
        rcases tem e he with h | h
        · rcases List.mem_append.mp h with h | h
          · exact Or.inl h
          · refine Or.inr ?_
            simp only [List.mem_singleton] at h
            subst h
            simp
            omega
        · exact Or.inr h
    · have hlen : (s.batch ++ [x]).length ≠ B := by
        simp
        omega
      have hcond : ¬((s.batch ++ [x]).length : Int) = cfg.batchSize := by
        rw [hBe]
        exact_mod_cast hlen
      rw [hstep, hs1, if_neg hcond]
      obtain ⟨t, ht, tc, tn, tb, teq, tem⟩ :=
        ih { s with batch := s.batch ++ [x] } hc (by simp; omega)
      refine ⟨t, ht, tc, tn, tb, ?_, fun e he => tem e he⟩
      simp only [List.length_append, List.length_cons, List.length_nil,
        List.length_map] at teq ⊢
      omega

/-- C1: for every queue constructed with batch size B > 0 and every
sequence of N non-nil item writes with N mod B = 0 and no intervening
timeout, the queue emits exactly N/B batches, each of length exactly B,
all size-triggered, and `numTimeouts` is unchanged (still 0). -/
theorem C1_size_multiple_batches {α : Type} (cfg : QCfg) (items : List α)
    (hB : 0 < cfg.batchSize)
    (hN : (items.length : Int) % cfg.batchSize = 0) :
    ((run cfg (items.map fun x => Ev.write (some x))).emitted.length : Int)
        = (items.length : Int) / cfg.batchSize ∧
    (∀ e ∈ (run cfg (items.map fun x => Ev.write (some x))).emitted,
        (e.items.length : Int) = cfg.batchSize ∧ e.trigger = Trigger.size) ∧
    (run cfg (items.map fun x => Ev.write (some x))).numTimeouts = 0 := by
  have hBe : cfg.batchSize = ((cfg.batchSize.toNat : Nat) : Int) := by omega
  have hBpos : 0 < cfg.batchSize.toNat := by omega
  obtain ⟨t, ht, tc, tn, tb, teq, tem⟩ :=
    queue_writes_run cfg cfg.batchSize.toNat hBpos hBe items (initState α) rfl
      (by exact hBpos)
  simp only [run]
  rw [ht]
  simp only [initState] at teq tn
  simp only [List.length_nil, Nat.mul_zero, Nat.zero_add, Nat.add_zero,
    List.length_map] at teq
  have hNn : items.length % cfg.batchSize.toNat = 0 := by
    rw [hBe] at hN
    exact_mod_cast hN
  have hb0 : t.batch.length = 0 := by
    have hmod : (cfg.batchSize.toNat * t.emitted.length + t.batch.length)
        % cfg.batchSize.toNat = t.batch.length % cfg.batchSize.toNat :=
      Nat.mul_add_mod _ _ _
    rw [teq, Nat.mod_eq_of_lt tb] at hmod
    rw [← hmod]
    exact hNn
  have hcount : t.emitted.length = items.length / cfg.batchSize.toNat := by
    have hmul : cfg.batchSize.toNat * t.emitted.length = items.length := by
      omega
    rw [← hmul, Nat.mul_div_cancel_left _ hBpos]
  refine ⟨?_, ?_, tn⟩
  · rw [hcount, Int.ofNat_ediv, ← hBe]
  · intro e he
    rcases tem e he with h | h
    · simp [initState] at h
    · refine ⟨?_, h.2⟩
      rw [hBe]
      exact_mod_cast h.1

/-- Witness for C1 at a concrete input: batchSize 5, ten writes. -/
theorem C1_witness :
    (0 : Int) < (QCfg.mk 1024 5 60).batchSize ∧
    ((([0,1,2,3,4,5,6,7,8,9] : List Nat).length : Int)
        % (QCfg.mk 1024 5 60).batchSize = 0) ∧
    (((run (QCfg.mk 1024 5 60)
        (([0,1,2,3,4,5,6,7,8,9] : List Nat).map fun x =>
          Ev.write (some x))).emitted.length : Int)
        = ((([0,1,2,3,4,5,6,7,8,9] : List Nat).length : Int))
            / (QCfg.mk 1024 5 60).batchSize ∧
     (∀ e ∈ (run (QCfg.mk 1024 5 60)
        (([0,1,2,3,4,5,6,7,8,9] : List Nat).map fun x =>
          Ev.write (some x))).emitted,
        (e.items.length : Int) = (QCfg.mk 1024 5 60).batchSize ∧
          e.trigger = Trigger.size) ∧
     (run (QCfg.mk 1024 5 60)
        (([0,1,2,3,4,5,6,7,8,9] : List Nat).map fun x =>
          Ev.write (some x))).numTimeouts = 0) :=
  ⟨by decide, by decide,
    C1_size_multiple_batches (QCfg.mk 1024 5 60) [0,1,2,3,4,5,6,7,8,9]
      (by decide) (by decide)⟩

/-- Timer fires on an idle (empty-batch) open queue are no-ops: the
timer is rearmed, nothing is emitted, no counter changes. -/
lemma queue_idle_timers {α : Type} (cfg : QCfg) (k : Nat) :
    ∀ s : QState α, s.closed = false → s.batch = [] →
      runFrom cfg s (List.replicate k Ev.timer) = s := by
  induction k with
  | zero => intro s _ _; rfl
  | succ k ih =>
    intro s hc hb
    have hstep : step cfg s Ev.timer = s := by
      simp [step, hc, hb]
    rw [List.replicate_succ]
    have hrun : runFrom cfg s (Ev.timer :: List.replicate k Ev.timer)
        = runFrom cfg (step cfg s Ev.timer) (List.replicate k Ev.timer) := rfl
    rw [hrun, hstep]
    exact ih s hc hb

/-- Counterexample for C2 as stated: on a queue with batchSize 1, a
single non-nil write followed by timeout-long silence emits one batch of
length 1, but the emission is size-triggered and `numTimeouts` stays 0
instead of being incremented to 1. -/
theorem C2_counterexample :
    (run (QCfg.mk 1024 1 1000)
        [Ev.write (some (0 : Nat)), Ev.timer]).emitted
      = [⟨[0], Trigger.size⟩] ∧
    (run (QCfg.mk 1024 1 1000)
        [Ev.write (some (0 : Nat)), Ev.timer]).numTimeouts = 0 := by
  constructor <;> rfl

/-- C2 amended: for every queue with batchSize ≥ 2, a single non-nil
write followed by no further writes for at least batchTimeout (one or
more timer fires, no other events) yields exactly one emitted batch, of
length 1, timeout-triggered, and `numTimeouts` is incremented from 0 to
exactly 1. -/
theorem C2_single_write_timeout_amended {α : Type} (cfg : QCfg) (x : α)
    (k : Nat) (hB : 2 ≤ cfg.batchSize) (hk : 1 ≤ k) :
    run cfg (Ev.write (some x) :: List.replicate k Ev.timer)
      = { batch := [], numTimeouts := 1,
          emitted := [⟨[x], Trigger.timeout⟩], closed := false } := by
  obtain ⟨m, rfl⟩ : ∃ m, k = m + 1 := ⟨k - 1, by omega⟩
  have hne : ¬((1 : Int) = cfg.batchSize) := by omega
  have h1 : step cfg (initState α) (Ev.write (some x))
      = { batch := [x], numTimeouts := 0, emitted := [], closed := false } := by
    simp [step, initState, hne]
  have h2 : step cfg
      ({ batch := [x], numTimeouts := 0, emitted := [],
         closed := false } : QState α) Ev.timer
      = { batch := [], numTimeouts := 1,
          emitted := [⟨[x], Trigger.timeout⟩], closed := false } := by
    simp [step]
  rw [List.replicate_succ]
  have hrun : run cfg (Ev.write (some x) :: Ev.timer :: List.replicate m Ev.timer)
      = runFrom cfg
          (step cfg (step cfg (initState α) (Ev.write (some x))) Ev.timer)
          (List.replicate m Ev.timer) := rfl
  rw [hrun, h1, h2]
  exact queue_idle_timers cfg m _ rfl rfl

/-- Witness for the amended C2 at a concrete input: batchSize 10, one
write, one timer fire. -/
theorem C2_witness :
    (2 : Int) ≤ (QCfg.mk 1024 10 1000).batchSize ∧ (1 : Nat) ≤ 1 ∧
    run (QCfg.mk 1024 10 1000)
        (Ev.write (some (0 : Nat)) :: List.replicate 1 Ev.timer)
      = { batch := [], numTimeouts := 1,
          emitted := [⟨[0], Trigger.timeout⟩], closed := false } :=
  ⟨by decide, by decide,
    C2_single_write_timeout_amended (QCfg.mk 1024 10 1000) 0 1
      (by decide) (by decide)⟩

/-- Running over a concatenation of event lists is running over the
first, then the second. -/
lemma queue_runFrom_append {α : Type} (cfg : QCfg) (s : QState α)
    (l1 l2 : List (Ev α)) :
    runFrom cfg s (l1 ++ l2) = runFrom cfg (runFrom cfg s l1) l2 := by
  simp only [runFrom, List.foldl_append]

/-- One Dispatcher step changes `numTimeouts` by exactly the number of
timeout-triggered emissions it performs. -/
lemma queue_step_timeouts {α : Type} (cfg : QCfg) (s : QState α) (e : Ev α) :
    (step cfg s e).numTimeouts
        + (s.emitted.countP fun em => em.trigger == Trigger.timeout)
      = s.numTimeouts
        + ((step cfg s e).emitted.countP fun em =>
            em.trigger == Trigger.timeout) := by
  cases e with
  | write x =>
    cases x with
    | none => rfl
    | some y =>
      by_cases hcl : s.closed
      · simp [step, hcl]
      · by_cases hcond : (s.batch.length : Int) + 1 = cfg.batchSize
        · simp [step, hcl, hcond, List.countP_append, List.countP_cons]
        · simp [step, hcl, hcond]
  | timer =>
    by_cases hcl : s.closed
    · simp [step, hcl]
    · by_cases hb : s.batch.isEmpty
      · simp [step, hcl, hb]
      · simp [step, hcl, hb, List.countP_append, List.countP_cons]
        omega
  | close =>
    by_cases hcl : s.closed
    · simp [step, hcl]
    · by_cases hb : s.batch.isEmpty
      · simp [step, hcl, hb]
      · simp [step, hcl, hb, List.countP_append, List.countP_cons]

/-- One Dispatcher step never decreases `numTimeouts`. -/
lemma queue_step_mono {α : Type} (cfg : QCfg) (s : QState α) (e : Ev α) :
    s.numTimeouts ≤ (step cfg s e).numTimeouts := by
  cases e with
  | write x =>
    cases x with
    | none => exact Nat.le_refl _
    | some y =>
      by_cases hcl : s.closed
      · simp [step, hcl]
      · by_cases hcond : (s.batch.length : Int) + 1 = cfg.batchSize
        · simp [step, hcl, hcond]
        · simp [step, hcl, hcond]
  | timer =>
    by_cases hcl : s.closed
    · simp [step, hcl]
    · by_cases hb : s.batch.isEmpty
      · simp [step, hcl, hb]
      · simp [step, hcl, hb]
  | close =>
    by_cases hcl : s.closed
    · simp [step, hcl]
    · by_cases hb : s.batch.isEmpty
      · simp [step, hcl, hb]
      · simp [step, hcl, hb]

/-- Over any run, `numTimeouts` changes by exactly the number of
timeout-triggered emissions added to the Output Stream. -/
lemma queue_runFrom_timeouts {α : Type} (cfg : QCfg) (events : List (Ev α)) :
    ∀ s : QState α,
      (runFrom cfg s events).numTimeouts
          + (s.emitted.countP fun em => em.trigger == Trigger.timeout)
        = s.numTimeouts
          + ((runFrom cfg s events).emitted.countP fun em =>
              em.trigger == Trigger.timeout) := by
  induction events with
  | nil => intro s; rfl
  | cons e es ih =>
    intro s
    have h1 := ih (step cfg s e)
    have h2 := queue_step_timeouts cfg s e
    have hrun : runFrom cfg s (e :: es) = runFrom cfg (step cfg s e) es := rfl
    rw [hrun]
    omega

/-- Over any run, `numTimeouts` never decreases. -/
lemma queue_runFrom_mono {α : Type} (cfg : QCfg) (events : List (Ev α)) :
    ∀ s : QState α, s.numTimeouts ≤ (runFrom cfg s events).numTimeouts := by
  induction events with
  | nil => intro s; exact Nat.le_refl _
  | cons e es ih =>
    intro s
    have h1 := queue_step_mono cfg s e
    have h2 := ih (step cfg s e)
    have hrun : runFrom cfg s (e :: es) = runFrom cfg (step cfg s e) es := rfl
    rw [hrun]
    omega

/-- C3: `numTimeouts` starts at 0, always equals the number of
timeout-triggered emissions delivered so far (so it is incremented
exactly once per timeout-triggered emission and never by a
size-triggered one), and is monotonically non-decreasing along every
execution. -/
theorem C3_numTimeouts_invariant {α : Type} (cfg : QCfg)
    (events : List (Ev α)) :
    (initState α).numTimeouts = 0 ∧
    (run cfg events).numTimeouts
      = (run cfg events).emitted.countP
          (fun em => em.trigger == Trigger.timeout) ∧
    ∀ n : Nat,
      (run cfg (events.take n)).numTimeouts
        ≤ (run cfg events).numTimeouts := by
  refine ⟨rfl, ?_, ?_⟩
  · have h := queue_runFrom_timeouts cfg events (initState α)
    simpa [initState] using h
  · intro n
    have hsplit : events = events.take n ++ events.drop n :=
      (List.take_append_drop n events).symm
    conv_rhs => rw [hsplit]
    simp only [run]
    rw [queue_runFrom_append]
    exact queue_runFrom_mono cfg (events.drop n) _

/-- C4: construction with a non-positive capacity, batchSize, or
batchTimeout fails immediately with `InvalidConfig` (`none`) and no
queue is created; with all three positive it returns the live handle
(the configuration and the initial Dispatcher state). -/
theorem C4_construct_validation (α : Type)
    (capacity batchSize batchTimeout : Int) :
    ((capacity ≤ 0 ∨ batchSize ≤ 0 ∨ batchTimeout ≤ 0) →
      New α capacity batchSize batchTimeout = none) ∧
    (0 < capacity → 0 < batchSize → 0 < batchTimeout →
      New α capacity batchSize batchTimeout
        = some (QCfg.mk capacity batchSize batchTimeout, initState α)) := by
  constructor
  · intro h
    simp only [New, if_pos h]
  · intro h1 h2 h3
    rw [New, if_neg (by omega)]

/-- Witness for C4 at concrete inputs: a non-positive capacity is
rejected; a fully positive configuration yields the live handle. -/
theorem C4_witness :
    New Nat 0 1 1 = none ∧
    New Nat 1024 5 60 = some (QCfg.mk 1024 5 60, initState Nat) :=
  ⟨(C4_construct_validation Nat 0 1 1).1 (Or.inl (by decide)),
   (C4_construct_validation Nat 1024 5 60).2 (by decide) (by decide)
     (by decide)⟩

/-- A single step can only make an item appear in the Dispatcher state
(open batch or emitted batches) if it was already there or the step is a
write of exactly that item. -/
lemma queue_step_appears {α : Type} (cfg : QCfg) (s : QState α) (e : Ev α)
    (y : α)
    (h : (∃ em ∈ (step cfg s e).emitted, y ∈ em.items)
          ∨ y ∈ (step cfg s e).batch) :
    ((∃ em ∈ s.emitted, y ∈ em.items) ∨ y ∈ s.batch)
      ∨ e = Ev.write (some y) := by
  cases e with
  | write x =>
    cases x with
    | none => exact Or.inl h
    | some v =>
      by_cases hcl : s.closed
      · rw [show step cfg s (Ev.write (some v)) = s by simp [step, hcl]] at h
        exact Or.inl h
      · by_cases hcond : (s.batch.length : Int) + 1 = cfg.batchSize
        · simp only [step, hcl, Bool.false_eq_true, if_false,
            List.length_append, List.length_cons, List.length_nil,
            Nat.cast_add, Nat.cast_one, Nat.zero_add, hcond, if_true,
            Nat.cast_ofNat] at h
          rcases h with ⟨em, hem, hy⟩ | hy
          · rcases List.mem_append.mp hem with hem | hem
            · exact Or.inl (Or.inl ⟨em, hem, hy⟩)
            · simp only [List.mem_singleton] at hem
              subst hem
              simp only [List.mem_append, List.mem_singleton] at hy
              rcases hy with hy | hy
              · exact Or.inl (Or.inr hy)
              · subst hy
                exact Or.inr rfl
          · simp at hy
        · simp only [step, hcl, Bool.false_eq_true, if_false,
            List.length_append, List.length_cons, List.length_nil,
            Nat.cast_add, Nat.cast_one, Nat.zero_add, hcond, if_true,
            Nat.cast_ofNat] at h
          rcases h with ⟨em, hem, hy⟩ | hy
          · exact Or.inl (Or.inl ⟨em, hem, hy⟩)
          · simp only [List.mem_append, List.mem_singleton] at hy
            rcases hy with hy | hy
            · exact Or.inl (Or.inr hy)
            · subst hy
              exact Or.inr rfl
  | timer =>
    by_cases hcl : s.closed
    · rw [show step cfg s Ev.timer = s by simp [step, hcl]] at h
      exact Or.inl h
    · by_cases hb : s.batch.isEmpty
      · rw [show step cfg s Ev.timer = s by simp [step, hcl, hb]] at h
        exact Or.inl h
      · simp only [step, hcl, Bool.false_eq_true, if_false, hb] at h
        rcases h with ⟨em, hem, hy⟩ | hy
        · rcases List.mem_append.mp hem with hem | hem
          · exact Or.inl (Or.inl ⟨em, hem, hy⟩)
          · simp only [List.mem_singleton] at hem
            subst hem
            exact Or.inl (Or.inr hy)
        · simp at hy
  | close =>
    by_cases hcl : s.closed
    · rw [show step cfg s Ev.close = s by simp [step, hcl]] at h
      exact Or.inl h
    · by_cases hb : s.batch.isEmpty
      · simp only [step, hcl, Bool.false_eq_true, if_false, hb,
          if_true] at h
        exact Or.inl h
      · simp only [step, hcl, Bool.false_eq_true, if_false, hb] at h
        rcases h with ⟨em, hem, hy⟩ | hy
        · rcases List.mem_append.mp hem with hem | hem
          · exact Or.inl (Or.inl ⟨em, hem, hy⟩)
          · simp only [List.mem_singleton] at hem
            subst hem
            exact Or.inl (Or.inr hy)
        · simp at hy

/-- Every item appearing in the Dispatcher state after a run was either
already there or was submitted by a non-nil write event of the run. -/
lemma queue_appears_from_writes {α : Type} (cfg : QCfg)
    (events : List (Ev α)) :
    ∀ (s : QState α) (y : α),
      ((∃ em ∈ (runFrom cfg s events).emitted, y ∈ em.items)
        ∨ y ∈ (runFrom cfg s events).batch) →
      ((∃ em ∈ s.emitted, y ∈ em.items) ∨ y ∈ s.batch)
        ∨ Ev.write (some y) ∈ events := by
  induction events with
  | nil => intro s y h; exact Or.inl h
  | cons e es ih =>
    intro s y h
    have hrun : runFrom cfg s (e :: es) = runFrom cfg (step cfg s e) es := rfl
    rw [hrun] at h
    rcases ih (step cfg s e) y h with h2 | h2
    · rcases queue_step_appears cfg s e y h2 with h3 | h3
      · exact Or.inl h3
      · subst h3
        exact Or.inr (List.mem_cons_self _ _)
    · exact Or.inr (List.mem_cons_of_mem _ h2)

/-- C5: on a queue that has not been closed, a nil write returns success
and leaves the state untouched (an explicit no-op that never reaches the
Input Buffer), and every item of every emitted batch was submitted by a
non-nil write — a nil/absent item never appears in any batch. -/
theorem C5_nil_write_noop {α : Type} (cfg : QCfg) (s : QState α)
    (h : s.closed = false) :
    step cfg s (Ev.write none) = s ∧
    writeOk s none = true ∧
    ∀ (events : List (Ev α)) (em : Emission α) (y : α),
      em ∈ (run cfg events).emitted → y ∈ em.items →
        Ev.write (some y) ∈ events := by
  refine ⟨rfl, rfl, ?_⟩
  intro events em y hem hy
  have happ := queue_appears_from_writes cfg events (initState α) y
    (Or.inl ⟨em, hem, hy⟩)
  rcases happ with h2 | h2
  · rcases h2 with ⟨em2, hem2, _⟩ | h2
    · simp [initState] at hem2
    · simp [initState] at h2
  · exact h2

/-- Witness for C5 at a concrete input: a freshly constructed queue is
not closed. -/
theorem C5_witness :
    (initState Nat).closed = false ∧
    (step (QCfg.mk 1 1 60) (initState Nat) (Ev.write none) = initState Nat ∧
     writeOk (initState Nat) (none : Option Nat) = true ∧
     ∀ (events : List (Ev Nat)) (em : Emission Nat) (y : Nat),
       em ∈ (run (QCfg.mk 1 1 60) events).emitted → y ∈ em.items →
         Ev.write (some y) ∈ events) :=
  ⟨rfl, C5_nil_write_noop (QCfg.mk 1 1 60) (initState Nat) rfl⟩

end QueueTheorems

section HistoryTheorems

open History

/-- Folding string append over a list distributes over the initial
accumulator. -/
lemma history_foldl_append (l : List String) :
    ∀ a : String,
      l.foldl (fun r s => r ++ s) a
        = a ++ l.foldl (fun r s => r ++ s) "" := by
  induction l with
  | nil => intro a; simp [String.append_empty]
  | cons x xs ih =>
    intro a
    simp only [List.foldl_cons]
    rw [ih (a ++ x), ih ("" ++ x), String.empty_append, String.append_assoc]

/-- `String.join` of a cons. -/
lemma history_join_cons (a : String) (l : List String) :
    String.join (a :: l) = a ++ String.join l := by
  show l.foldl (fun r s => r ++ s) ("" ++ a) = a ++ String.join l
  rw [String.empty_append, history_foldl_append]
  rfl

/-- `joinNL` of a cons with a non-empty tail. -/
lemma history_joinNL_cons (z : String) (l : List String) (h : l ≠ []) :
    joinNL (z :: l) = z ++ "\n" ++ joinNL l := by
  cases l with
  | nil => cases h rfl
  | cons y ys => rfl

/-- The write loop on a list with an explicit last element. -/
lemma history_writeLoop_concat (ys : List String) (x : String) :
    writeLoop (ys ++ [x])
      = some (String.join (ys.map (fun s => s ++ "\n")) ++ x) := by
  simp [writeLoop, List.getLast?_concat, List.dropLast_concat]

/-- `joinNL` on a list with an explicit last element. -/
lemma history_joinNL_concat : ∀ (ys : List String) (x : String),
    joinNL (ys ++ [x]) = String.join (ys.map (fun s => s ++ "\n")) ++ x := by
  intro ys
  induction ys with
  | nil =>
    intro x
    show joinNL [x] = String.join [] ++ x
    rw [joinNL]
    show x = "" ++ x
    rw [String.empty_append]
  | cons z zs ih =>
    intro x
    rw [List.cons_append, history_joinNL_cons z (zs ++ [x]) (by simp),
      ih, List.map_cons, history_join_cons, String.append_assoc,
      String.append_assoc, String.append_assoc]

/-- The write loop emits the entries separated by newlines with no
trailing newline. -/
lemma history_writeLoop_eq (k : List String) (h : k ≠ []) :
    writeLoop k = some (joinNL k) := by
  obtain ⟨ys, x, rfl⟩ : ∃ ys x, k = ys ++ [x] :=
    ⟨k.dropLast, k.getLast h, (List.dropLast_append_getLast h).symm⟩
  rw [history_writeLoop_concat, history_joinNL_concat]

/-- For a positive `maxSz` and a non-empty filtered/deduped list, `Write`
writes exactly the last `min maxSz (len k)` entries, newline-separated
with no trailing newline. -/
lemma history_writeHist_pos (j : List String) (maxSz : Int) (hm : 0 < maxSz)
    (hk : Filter (Dedupe j) ≠ []) :
    WriteHist j maxSz false
      = some (joinNL ((Filter (Dedupe j)).drop
          ((Filter (Dedupe j)).length
            - min maxSz.toNat (Filter (Dedupe j)).length))) := by
  have hj : ¬(j.length = 0) := by
    intro h
    rw [List.length_eq_zero] at h
    subst h
    exact hk rfl
  have hklen : ¬((Filter (Dedupe j)).length = 0) := by
    intro h
    exact hk (List.length_eq_zero.mp h)
  rw [WriteHist]
  rw [if_neg hj]
  simp only [Bool.false_eq_true, if_false]
  rw [if_neg hklen]
  by_cases hgt : ((Filter (Dedupe j)).length : Int) > maxSz
  · rw [if_pos hgt, if_pos (by omega)]
    have hdropnat : (((Filter (Dedupe j)).length : Int) - maxSz).toNat
        = (Filter (Dedupe j)).length
            - min maxSz.toNat (Filter (Dedupe j)).length := by
      omega
    rw [hdropnat]
    apply history_writeLoop_eq
    intro hempty
    have hlen := congrArg List.length hempty
    simp only [List.length_drop, List.length_nil] at hlen
    omega
  · rw [if_neg hgt]
    have hz : (Filter (Dedupe j)).length
        - min maxSz.toNat (Filter (Dedupe j)).length = 0 := by
      omega
    rw [hz, List.drop_zero]
    exact history_writeLoop_eq _ hk

/-- C6: with a positive bound and a non-nil writer, `Write` persists
exactly the last `min maxSz (len k)` entries of `k = Filter(Dedupe(j))`,
in order, newline-separated with no trailing newline; with a nil writer,
an empty `j`, or an empty `k` it writes nothing and returns nil. -/
theorem C6_write_bounded (j : List String) (maxSz : Int) (hm : 0 < maxSz) :
    WriteHist j maxSz true = some "" ∧
    (Filter (Dedupe j) = [] → WriteHist j maxSz false = some "") ∧
    (Filter (Dedupe j) ≠ [] →
      WriteHist j maxSz false
        = some (joinNL ((Filter (Dedupe j)).drop
            ((Filter (Dedupe j)).length
              - min maxSz.toNat (Filter (Dedupe j)).length)))) := by
  refine ⟨?_, ?_, fun hk => history_writeHist_pos j maxSz hm hk⟩
  · by_cases hj : j.length = 0
    · simp [WriteHist, hj]
    · simp [WriteHist, hj]
  · intro hk
    by_cases hj : j.length = 0
    · simp [WriteHist, hj]
    · simp [WriteHist, hj, hk]

/-- Witness for C6 at a concrete input: three entries, bound 2. -/
theorem C6_witness :
    (0 : Int) < 2 ∧
    (WriteHist ["x", "y", "z"] 2 true = some "" ∧
     (Filter (Dedupe ["x", "y", "z"]) = [] →
       WriteHist ["x", "y", "z"] 2 false = some "") ∧
     (Filter (Dedupe ["x", "y", "z"]) ≠ [] →
       WriteHist ["x", "y", "z"] 2 false
         = some (joinNL ((Filter (Dedupe ["x", "y", "z"])).drop
             ((Filter (Dedupe ["x", "y", "z"])).length
               - min (2 : Int).toNat
                   (Filter (Dedupe ["x", "y", "z"])).length))))) :=
  ⟨by decide, C6_write_bounded ["x", "y", "z"] 2 (by decide)⟩

/-- C10: with `Filter(Dedupe(j))` non-empty, a non-positive `maxSz`
makes `Write` perform an out-of-bounds operation (`none`), and a
positive `maxSz` never does. -/
theorem C10_write_bound_safety (j : List String) (maxSz : Int)
    (hk : Filter (Dedupe j) ≠ []) :
    (maxSz ≤ 0 → WriteHist j maxSz false = none) ∧
    (0 < maxSz → WriteHist j maxSz false ≠ none) := by
  have hj : ¬(j.length = 0) := by
    intro h
    rw [List.length_eq_zero] at h
    subst h
    exact hk rfl
  have hklen : ¬((Filter (Dedupe j)).length = 0) := by
    intro h
    exact hk (List.length_eq_zero.mp h)
  constructor
  · intro hm
    have hgt : ((Filter (Dedupe j)).length : Int) > maxSz := by omega
    rw [WriteHist]
    rw [if_neg hj]
    simp only [Bool.false_eq_true, if_false]
    rw [if_neg hklen, if_pos hgt]
    by_cases hle : ((Filter (Dedupe j)).length : Int) - maxSz
        ≤ ((Filter (Dedupe j)).length : Int)
    · rw [if_pos hle]
      have hdrop : ((((Filter (Dedupe j)).length : Int) - maxSz)).toNat
          = (Filter (Dedupe j)).length := by omega
      rw [hdrop, List.drop_length]
      rfl
    · rw [if_neg hle]
  · intro hm
    rw [history_writeHist_pos j maxSz hm hk]
    simp

/-- Witness for C10 at a concrete input: one entry, bound 0. -/
theorem C10_witness :
    Filter (Dedupe ["x"]) ≠ [] ∧
    (((0 : Int) ≤ 0 → WriteHist ["x"] 0 false = none) ∧
     ((0 : Int) < 0 → WriteHist ["x"] 0 false ≠ none)) :=
  ⟨by decide, C10_write_bound_safety ["x"] 0 (by decide)⟩

/-- `dedupeAux prev xs` is a subsequence of `xs`. -/
lemma history_dedupeAux_sublist :
    ∀ (xs : List String) (prev : String), (dedupeAux prev xs).Sublist xs := by
  intro xs
  induction xs with
  | nil => intro prev; exact List.Sublist.refl []
  | cons x xs ih =>
    intro prev
    rw [dedupeAux]
    by_cases h : x ≠ prev
    · rw [if_pos h]
      exact (ih x).cons₂ x
    · rw [if_neg h]
      exact (ih prev).cons x

/-- With `prev` the last element already emitted, the output of
`dedupeAux` has no two adjacent equal elements, starting from `prev`. -/
lemma history_dedupeAux_adjacent :
    ∀ (xs : List String) (prev : String),
      List.Chain' (fun a b => a ≠ b) (prev :: dedupeAux prev xs) := by
  intro xs
  induction xs with
  | nil => intro prev; simp [dedupeAux]
  | cons x xs ih =>
    intro prev
    rw [dedupeAux]
    by_cases h : x ≠ prev
    · rw [if_pos h]
      exact List.chain'_cons.mpr ⟨Ne.symm h, ih x⟩
    · rw [if_neg h]
      exact ih prev

/-- Counterexample for C7 as stated: `Dedupe` removes only adjacent
duplicates, so in `Dedupe ["a", "b", "a"]` the string "a" occurs
twice. -/
theorem C7_counterexample :
    Dedupe ["a", "b", "a"] = ["a", "b", "a"] ∧
    (Dedupe ["a", "b", "a"]).count "a" = 2 := by
  constructor <;> decide

/-- C7 amended: `Dedupe` removes adjacent (consecutive) duplicates: no
two adjacent elements of `Dedupe s` are equal, and `Dedupe s` is an
order-preserving subsequence of `s` (with `Dedupe [] = []`). -/
theorem C7_dedupe_adjacent (s : List String) :
    List.Chain' (fun a b => a ≠ b) (Dedupe s) ∧ (Dedupe s).Sublist s := by
  cases s with
  | nil => exact ⟨List.chain'_nil, List.Sublist.refl []⟩
  | cons x xs =>
    exact ⟨history_dedupeAux_adjacent xs x,
      (history_dedupeAux_sublist xs x).cons₂ x⟩

/-- `wordsAux` with a non-empty current word never returns the empty
list. -/
lemma history_wordsAux_ne_nil :
    ∀ (l cur : List Char), cur ≠ [] → wordsAux l cur ≠ [] := by
  intro l
  induction l with
  | nil =>
    intro cur h
    rw [wordsAux]
    rw [if_neg (by simpa [List.isEmpty_iff] using h)]
    simp
  | cons c cs ih =>
    intro cur h
    rw [wordsAux]
    by_cases hsp : goIsSpace c
    · rw [if_pos hsp, if_neg (by simpa [List.isEmpty_iff] using h)]
      simp
    · rw [if_neg hsp]
      exact ih (c :: cur) (by simp)

/-- `words l` is empty exactly when every character of `l` is
whitespace. -/
lemma history_words_nil_iff :
    ∀ l : List Char, words l = [] ↔ l.all goIsSpace = true := by
  intro l
  induction l with
  | nil => simp [words, wordsAux]
  | cons c cs ih =>
    by_cases hsp : goIsSpace c
    · rw [words, wordsAux, if_pos hsp]
      simp only [List.isEmpty_nil, if_true, List.all_cons, hsp,
        Bool.true_and]
      exact ih
    · rw [words, wordsAux, if_neg hsp]
      simp only [List.all_cons, hsp, Bool.false_and]
      constructor
      · intro h
        exact absurd h (history_wordsAux_ne_nil cs [c] (by simp))
      · intro h
        cases h

/-- `fields x` is empty exactly when `x` is all-whitespace. -/
lemma history_fields_nil_iff (x : String) :
    (fields x).length = 0 ↔ x.toList.all goIsSpace = true := by
  rw [fields, List.length_map, List.length_eq_zero]
  exact history_words_nil_iff x.toList

/-- The kept elements of `Filter` are exactly those with some
non-whitespace character. -/
lemma history_filter_eq (s : List String) :
    Filter s = s.filter (fun x => x.toList.any fun c => !goIsSpace c) := by
  induction s with
  | nil => rfl
  | cons x xs ih =>
    rw [History.Filter]
    by_cases hall : x.toList.all goIsSpace = true
    · have hcond : (decide (x = "") || decide ((fields x).length = 0)) = true := by
        simp only [Bool.or_eq_true, decide_eq_true_eq]
        exact Or.inr ((history_fields_nil_iff x).mpr hall)
      rw [if_pos hcond]
      have hany : (x.toList.any fun c => !goIsSpace c) = false := by
        rw [List.any_eq_false]
        intro c hc
        have hcs := List.all_eq_true.mp hall c hc
        simp [hcs]
      have hneg : ¬((x.toList.any fun c => !goIsSpace c) = true) := by
        rw [hany]
        exact Bool.false_ne_true
      rw [@List.filter_cons_of_neg String
        (fun y => y.toList.any fun c => !goIsSpace c) x xs hneg]
      exact ih
    · have hcond : ¬((decide (x = "") || decide ((fields x).length = 0)) = true) := by
        simp only [Bool.or_eq_true, decide_eq_true_eq]
        rintro (rfl | h)
        · exact hall (by decide)
        · exact hall ((history_fields_nil_iff x).mp h)
      rw [if_neg hcond]
      have hany : (x.toList.any fun c => !goIsSpace c) = true := by
        rw [List.all_eq_true] at hall
        push_neg at hall
        obtain ⟨c, hc, hcs⟩ := hall
        rw [List.any_eq_true]
        exact ⟨c, hc, by simp [hcs]⟩
      rw [@List.filter_cons_of_pos String
        (fun y => y.toList.any fun c => !goIsSpace c) x xs hany]
      rw [ih]

/-- C8: `Filter` keeps exactly the order-preserving subsequence of
elements with at least one non-whitespace character (non-empty and with
a non-empty `strings.Fields`), and consequently `Read` never returns a
blank or whitespace-only line. -/
theorem C8_filter_blank (s : List String) (lines : List String) :
    Filter s = s.filter (fun x => x.toList.any fun c => !goIsSpace c) ∧
    ∀ x ∈ Read (some lines),
      x ≠ "" ∧ (x.toList.any fun c => !goIsSpace c) = true := by
  refine ⟨history_filter_eq s, ?_⟩
  intro x hx
  have hread : Read (some lines) = Filter lines := rfl
  rw [hread, history_filter_eq] at hx
  have hp := List.of_mem_filter hx
  refine ⟨?_, hp⟩
  intro hempty
  subst hempty
  simp at hp

/-- C9: when `RQLITE_HISTFILESIZE` parses as an integer, `Size` returns
the parsed value, even when it is zero or negative (the guard
`maxSize > 0` tests the still-default `MaxHistSize`, not the parsed
value); when the variable is unset (`""`) or does not parse, `Size`
returns `MaxHistSize = 100`. -/
theorem C9_size_env (str : String) (v : Int) (h : atoi str = some v) :
    Size str = v ∧ Size "" = 100 ∧
    ∀ t : String, atoi t = none → Size t = 100 := by
  refine ⟨?_, rfl, ?_⟩
  · have hne : str ≠ "" := by
      intro he
      subst he
      simp [atoi] at h
    simp [Size, MaxHistSize, hne, h]
  · intro t ht
    by_cases hte : t = ""
    · subst hte
      rfl
    · simp [Size, MaxHistSize, hte, ht]

/-- Witness for C9 at a concrete input: a negative value that parses. -/
theorem C9_witness :
    atoi "-5" = some (-5) ∧
    (Size "-5" = -5 ∧ Size "" = 100 ∧
     ∀ t : String, atoi t = none → Size t = 100) :=
  ⟨by decide, C9_size_env "-5" (-5) (by decide)⟩

end HistoryTheorems
